import Mathlib

/-!
Shallow embedding of the step sequencer engine of `src/sequencer.ts`
(snowfall repository), together with proofs of the spec's claims about it.

Modelling conventions:
* The 6x16 pattern grid (`number[][]` in the source, all writes bounds
  checked) is embedded as a total function `Pos → Nat` on the fixed index
  ranges; the grid dimensions are therefore fixed by construction, exactly
  as they are in the source where every write goes through an in-range
  index.
* JavaScript numbers that hold times, velocities and random draws are
  embedded as `Rat`; indices that may be out of range arrive as `Int`.
* `Math.random()` draws are passed in explicitly as oracle arguments
  (values in `[0,1)`); `Math.floor(r * n)` becomes
  `(Int.toNat ⌊r * n⌋)`, reduced `% n` where the source immediately uses
  it as an index (the reduction is the identity on the real domain
  `r ∈ [0,1)` and merely totalises the function).
* Unbounded `while` loops are given explicit fuel; the fuel chosen is
  always sufficient on the loop's real domain.
-/

abbrev STEPS : Nat := 16
abbrev TRACKS : Nat := 6
abbrev MAX_SUBDIV : Nat := 4

abbrev Pos : Type := Fin TRACKS × Fin STEPS

abbrev Pattern : Type := Pos → Nat

/-- The pattern-store invariant: every cell holds a value in `[0, MAX_SUBDIV]`
(the lower bound is enforced by the `Nat` cell type, mirroring that every
write in the source is a clamped or 0/1 value). -/
def patInv (p : Pattern) : Prop := ∀ x : Pos, p x ≤ MAX_SUBDIV

/-- `toggleStep` from sequencer.ts: guard out-of-range indices, otherwise
cycle the cell `0 → 1 → 2 → 3 → 4 → 0` and return the new value. -/
def toggleStep (p : Pattern) (track step : Int) : Pattern × Nat :=
  if h : 0 ≤ track ∧ track < (TRACKS : Int) ∧ 0 ≤ step ∧ step < (STEPS : Int) then
    let x : Pos := (⟨track.toNat, by omega⟩, ⟨step.toNat, by omega⟩)
    let v := (p x + 1) % (MAX_SUBDIV + 1)
    (Function.update p x v, v)
  else (p, 0)

/-- `setStep` from sequencer.ts: guard out-of-range indices, otherwise clamp
the value into `[0, MAX_SUBDIV]` and store it. -/
def setStep (p : Pattern) (track step value : Int) : Pattern :=
  if h : 0 ≤ track ∧ track < (TRACKS : Int) ∧ 0 ≤ step ∧ step < (STEPS : Int) then
    Function.update p (⟨track.toNat, by omega⟩, ⟨step.toNat, by omega⟩)
      (max 0 (min (MAX_SUBDIV : Int) value)).toNat
  else p

/-- `getStepValue` from sequencer.ts: out-of-range indices return 0. -/
def getStepValue (p : Pattern) (track step : Int) : Nat :=
  if h : 0 ≤ track ∧ track < (TRACKS : Int) ∧ 0 ≤ step ∧ step < (STEPS : Int) then
    p (⟨track.toNat, by omega⟩, ⟨step.toNat, by omega⟩)
  else 0

/-- `clearPattern` from sequencer.ts: every cell set to 0. -/
def clearPattern : Pattern := fun _ => 0

theorem toggleStep_fin (p : Pattern) (t : Fin TRACKS) (s : Fin STEPS) :
    toggleStep p t.val s.val =
      (Function.update p (t, s) ((p (t, s) + 1) % (MAX_SUBDIV + 1)),
        (p (t, s) + 1) % (MAX_SUBDIV + 1)) := by
  have h : (0 : Int) ≤ t.val ∧ (t.val : Int) < (TRACKS : Int) ∧
      (0 : Int) ≤ s.val ∧ (s.val : Int) < (STEPS : Int) := by
    refine ⟨Int.ofNat_nonneg _, ?_, Int.ofNat_nonneg _, ?_⟩
    · exact_mod_cast t.isLt
    · exact_mod_cast s.isLt
  unfold toggleStep
  rw [dif_pos h]
  have ht : (⟨((t.val : Int)).toNat, by omega⟩ : Fin TRACKS) = t := by
    apply Fin.ext; simp
  have hs : (⟨((s.val : Int)).toNat, by omega⟩ : Fin STEPS) = s := by
    apply Fin.ext; simp
  rw [ht, hs]

/-- C9: out-of-range track or step indices are silently ignored:
`toggleStep` returns 0 and leaves the pattern unchanged, `setStep` leaves
the pattern unchanged, and `getStepValue` returns 0; all three are total
functions (no exception). -/
theorem outOfRange_cell_ops (p : Pattern) (track step value : Int)
    (h : track < 0 ∨ (TRACKS : Int) ≤ track ∨ step < 0 ∨ (STEPS : Int) ≤ step) :
    toggleStep p track step = (p, 0) ∧
    setStep p track step value = p ∧
    getStepValue p track step = 0 := by
  have hn : ¬ (0 ≤ track ∧ track < (TRACKS : Int) ∧ 0 ≤ step ∧ step < (STEPS : Int)) := by
    omega
  unfold toggleStep setStep getStepValue
  rw [dif_neg hn, dif_neg hn, dif_neg hn]
  exact ⟨rfl, rfl, rfl⟩

theorem outOfRange_cell_ops_witness :
    (((-1 : Int) < 0 ∨ (TRACKS : Int) ≤ -1 ∨ (3 : Int) < 0 ∨ (STEPS : Int) ≤ 3) ∧
      toggleStep clearPattern (-1) 3 = (clearPattern, 0) ∧
      setStep clearPattern (-1) 3 7 = clearPattern ∧
      getStepValue clearPattern (-1) 3 = 0) :=
  ⟨Or.inl (by norm_num),
    outOfRange_cell_ops clearPattern (-1) 3 7 (Or.inl (by norm_num))⟩

/-- C10: for in-range indices, `toggleStep` increments the cell modulo 5 and
returns the new value, leaves every other cell unchanged, and (given the
pattern invariant) five consecutive toggles of the same cell restore the
whole pattern. -/
theorem toggleStep_cycles (p : Pattern) (t : Fin TRACKS) (s : Fin STEPS)
    (hp : p (t, s) ≤ MAX_SUBDIV) :
    (toggleStep p t.val s.val).2 = (p (t, s) + 1) % (MAX_SUBDIV + 1) ∧
    (toggleStep p t.val s.val).1 (t, s) = (p (t, s) + 1) % (MAX_SUBDIV + 1) ∧
    (∀ y : Pos, y ≠ (t, s) → (toggleStep p t.val s.val).1 y = p y) ∧
    (fun q => (toggleStep q t.val s.val).1)^[5] p = p := by
  refine ⟨by rw [toggleStep_fin], by rw [toggleStep_fin]; simp, ?_, ?_⟩
  · intro y hy
    rw [toggleStep_fin]
    simp [Function.update_noteq hy]
  · simp only [Function.iterate_succ, Function.iterate_zero, Function.comp_apply,
      id_eq, toggleStep_fin, Function.update_idem, Function.update_same]
    have hv : ((((((p (t, s) + 1) % (MAX_SUBDIV + 1) + 1) % (MAX_SUBDIV + 1) + 1) %
        (MAX_SUBDIV + 1) + 1) % (MAX_SUBDIV + 1) + 1) % (MAX_SUBDIV + 1)) = p (t, s) := by
      simp only [MAX_SUBDIV] at hp ⊢
      omega
    rw [hv, Function.update_eq_self]

theorem toggleStep_cycles_witness :
    (clearPattern ((2 : Fin TRACKS), (5 : Fin STEPS)) ≤ MAX_SUBDIV ∧
      ((toggleStep clearPattern (2 : Fin TRACKS).val (5 : Fin STEPS).val).2 =
          (clearPattern ((2 : Fin TRACKS), (5 : Fin STEPS)) + 1) % (MAX_SUBDIV + 1) ∧
        (toggleStep clearPattern (2 : Fin TRACKS).val (5 : Fin STEPS).val).1
            ((2 : Fin TRACKS), (5 : Fin STEPS)) =
          (clearPattern ((2 : Fin TRACKS), (5 : Fin STEPS)) + 1) % (MAX_SUBDIV + 1) ∧
        (∀ y : Pos, y ≠ ((2 : Fin TRACKS), (5 : Fin STEPS)) →
          (toggleStep clearPattern (2 : Fin TRACKS).val (5 : Fin STEPS).val).1 y =
            clearPattern y) ∧
        (fun q => (toggleStep q (2 : Fin TRACKS).val (5 : Fin STEPS).val).1)^[5]
            clearPattern = clearPattern)) :=
  ⟨by decide, toggleStep_cycles clearPattern 2 5 (by decide)⟩

/-- Playback/sequencer module state (globals of sequencer.ts relevant to the
start/stop lifecycle). `schedulerInterval` is `some handle` iff a periodic
scheduler tick is registered. -/
structure SequencerState where
  isPlaying : Bool
  tempo : Rat
  swing : Rat
  currentStep : Nat
  nextStepTime : Rat
  pattern : Pattern
  schedulerInterval : Option Nat

/-- `startSequencer` from sequencer.ts: a no-op when already playing, when the
audio clock is not ready (`isAudioReady()` false), or when the audio context
is absent; otherwise starts playback at step 0 with a small initial delay and
registers the scheduler tick. -/
def startSequencer (ready : Bool) (ctx : Option Rat) (st : SequencerState) :
    SequencerState :=
  if st.isPlaying || !ready then st
  else
    match ctx with
    | none => st
    | some now =>
        { st with
          isPlaying := true
          currentStep := 0
          nextStepTime := now + 1/20
          schedulerInterval := some 0 }

/-- C8: if the clock source is not ready, or the audio context is absent,
`startSequencer` mutates no state at all: the state (including `isPlaying`,
the step index, `nextStepTime`, the pattern, and the scheduler tick
registration) is returned unchanged, and the function is total (no
exception). -/
theorem startSequencer_not_ready (ready : Bool) (ctx : Option Rat)
    (st : SequencerState) (h : ready = false ∨ ctx = none) :
    startSequencer ready ctx st = st ∧
    (startSequencer ready ctx st).isPlaying = st.isPlaying ∧
    (startSequencer ready ctx st).currentStep = st.currentStep ∧
    (startSequencer ready ctx st).nextStepTime = st.nextStepTime ∧
    (startSequencer ready ctx st).pattern = st.pattern ∧
    (startSequencer ready ctx st).schedulerInterval = st.schedulerInterval := by
  have hst : startSequencer ready ctx st = st := by
    unfold startSequencer
    rcases h with h | h
    · subst h; simp
    · subst h
      cases hb : (st.isPlaying || !ready) <;> simp
  exact ⟨hst, by rw [hst], by rw [hst], by rw [hst], by rw [hst], by rw [hst]⟩

theorem startSequencer_not_ready_witness :
    ((false = false ∨ (none : Option Rat) = none) ∧
      startSequencer false none
          ⟨false, 120, 0, 0, 0, clearPattern, none⟩ =
        ⟨false, 120, 0, 0, 0, clearPattern, none⟩) :=
  ⟨Or.inl rfl,
    (startSequencer_not_ready false none
      ⟨false, 120, 0, 0, 0, clearPattern, none⟩ (Or.inl rfl)).1⟩

/-- Inner merge loop of Bjorklund's algorithm (the `for i in [0, half)` loop
in `euclidean` of sequencer.ts): at index `i`, append the last group to group
`i` and pop the last group; `n` counts the remaining iterations. -/
def bjorkInner (i : Nat) : Nat → List (List Nat) → List (List Nat)
  | 0, l => l
  | n + 1, l =>
      bjorkInner (i + 1) n ((l.set i (l.getD i [] ++ l.getLastD [])).dropLast)

/-- Outer `while (divisor > 1)` loop of Bjorklund's algorithm. The source
loop terminates because `divisor` shrinks by `half ≥ 1` on every pass (the
`steps` register is ≥ 1 throughout on the call domain `0 < hits < steps`);
`fuel` is instantiated with the initial `divisor`, which therefore suffices. -/
def bjorkWhile : Nat → Nat → Nat → List (List Nat) → List (List Nat)
  | 0, _, _, l => l
  | fuel + 1, divisor, steps, l =>
      if 1 < divisor then
        let half := min divisor steps
        bjorkWhile fuel (divisor - half) half (bjorkInner 0 half l)
      else l

/-- `euclidean` from sequencer.ts: distribute `hits` across `steps` slots
(Bjorklund). `hits <= 0` gives all-false, `hits >= steps` all-true; otherwise
run the bucket-merging algorithm and read the flattened groups back into a
boolean list of length `steps` (`result[i] = flat[i] === 1`, positions beyond
`flat` staying false). -/
def euclidean (hits : Int) (steps : Nat) : List Bool :=
  if hits ≤ 0 then List.replicate steps false
  else if (steps : Int) ≤ hits then List.replicate steps true
  else
    let h := hits.toNat
    let pat := (List.range steps).map (fun i => if i < h then [1] else [0])
    let flat := (bjorkWhile (steps - h) (steps - h) h pat).flatten
    (List.range steps).map (fun i => flat.getD i 0 == 1)


/-- Floor of `r * n`, i.e. the source idiom `Math.floor(Math.random() * n)`. -/
def randIndex (r : Rat) (n : Nat) : Nat := (⌊r * n⌋).toNat

/-- A random track index; the `% TRACKS` totalisation is the identity for
draws in `[0,1)`. -/
def randTrack (r : Rat) : Fin TRACKS :=
  ⟨randIndex r TRACKS % TRACKS, Nat.mod_lt _ (by norm_num)⟩

/-- A random step index; the `% STEPS` totalisation is the identity for
draws in `[0,1)`. -/
def randStep (r : Rat) : Fin STEPS :=
  ⟨randIndex r STEPS % STEPS, Nat.mod_lt _ (by norm_num)⟩

/-- The random draws consumed by the three fill strategies (one field per
`Math.random()` call site). -/
structure FillOracle where
  eucDens : Fin TRACKS → Rat
  eucRot : Fin TRACKS → Rat
  rndCell : Fin TRACKS → Fin STEPS → Rat
  glitchFlip : Fin TRACKS → Fin STEPS → Rat
  burstT : Rat
  burstStart : Rat
  burstLen : Rat

/-- Per-track euclidean fill density draw (`densities` array in
`fillEuclidean`): `Math.floor(r * mult) + offset` with the per-voice
multiplier/offset tables of the source. -/
def euclideanFillDensity (t : Fin TRACKS) (r : Rat) : Int :=
  ⌊r * (([4, 3, 6, 2, 5, 3].getD t.val 0 : Nat) : Rat)⌋ +
    (([2, 1, 4, 0, 1, 0].getD t.val 0 : Nat) : Int)

/-- `fillEuclidean` from sequencer.ts: per track, a random-density euclidean
rhythm rotated by a random amount, written as 0/1 cells. -/
def fillEuclidean (o : FillOracle) : Pattern :=
  fun x =>
    let rhythm := euclidean (euclideanFillDensity x.1 (o.eucDens x.1)) STEPS
    let rotation := randIndex (o.eucRot x.1) STEPS
    if rhythm.getD ((x.2.val + rotation) % STEPS) false then 1 else 0

/-- `fillRandom` from sequencer.ts: each cell activates independently with a
per-track probability. -/
def fillRandom (o : FillOracle) : Pattern :=
  fun x =>
    if o.rndCell x.1 x.2 <
        ([(1 : Rat)/4, 3/20, 1/2, 1/20, 1/5, 1/10].getD x.1.val 0) then 1 else 0

/-- `fillGlitch` from sequencer.ts: euclidean base, then a 15% chance to flip
each cell, then a forced burst of consecutive hits on one random track. -/
def fillGlitch (o : FillOracle) : Pattern :=
  let base := fillEuclidean o
  let flipped : Pattern := fun x =>
    if o.glitchFlip x.1 x.2 < 3/20 then (if 0 < base x then 0 else 1) else base x
  let bt := randTrack o.burstT
  let bs := randIndex o.burstStart 12
  let bl := randIndex o.burstLen 3 + 2
  fun x =>
    if x.1 = bt ∧ bs ≤ x.2.val ∧ x.2.val < bs + bl then 1 else flipped x

/-- The three fill strategies, in the cycle order of the source. -/
inductive FillType where
  | euclidean
  | random
  | glitch
deriving DecidableEq, Repr

/-- The `fillFunctions` dispatch table of sequencer.ts. -/
def fillFunction : FillType → FillOracle → Pattern
  | .euclidean => fillEuclidean
  | .random => fillRandom
  | .glitch => fillGlitch

/-- Successor in the fixed cycle `euclidean → random → glitch → euclidean`
(the source's `types[(types.indexOf(current) + 1) % 3]`). -/
def nextFillType : FillType → FillType
  | .euclidean => .random
  | .random => .glitch
  | .glitch => .euclidean

/-- `applyFill` from sequencer.ts: advance `currentFillType` to the next
strategy in the cycle, apply it, and return it (the state component is the
pair (currentFillType, pattern); the second component of the result is the
returned strategy). -/
def applyFill (o : FillOracle) (st : FillType × Pattern) :
    (FillType × Pattern) × FillType :=
  let t' := nextFillType st.1
  ((t', fillFunction t' o), t')

/-- `applyFillType` from sequencer.ts: set `currentFillType` to the given
strategy and apply it. -/
def applyFillType (k : FillType) (o : FillOracle) (_st : FillType × Pattern) :
    FillType × Pattern :=
  (k, fillFunction k o)

/-- A concrete all-zero fill oracle, used for counterexample instances. -/
def zeroFillOracle : FillOracle :=
  ⟨fun _ => 0, fun _ => 0, fun _ _ => 0, fun _ _ => 0, 0, 0, 0⟩

/-- C7 counterexample: starting from cycle position `euclidean`, calling
`applyFillType glitch` and then `applyFill` yields `euclidean`, whereas
`applyFill` without the intervening `applyFillType` yields `random` — so
`applyFillType` does change the strategy chosen by the next `applyFill`,
contradicting the claim. -/
theorem applyFillType_moves_cycle_cex :
    (applyFill zeroFillOracle
        (applyFillType FillType.glitch zeroFillOracle
          (FillType.euclidean, clearPattern))).2 = FillType.euclidean ∧
    (applyFill zeroFillOracle (FillType.euclidean, clearPattern)).2 =
      FillType.random ∧
    FillType.euclidean ≠ FillType.random :=
  ⟨rfl, rfl, by decide⟩

/-- C7 (amended): `applyFill` advances the cycle position to the next
strategy in the fixed order euclidean → random → glitch → euclidean, applies
it and returns it; `applyFillType k` applies `k` directly but also sets the
cycle position to `k`, so the next `applyFill` applies the successor of `k`
rather than the strategy that would have followed the previous position. -/
theorem applyFill_cycle (o o' : FillOracle) (k : FillType)
    (st : FillType × Pattern) :
    (applyFill o st).2 = nextFillType st.1 ∧
    (applyFill o st).1.1 = nextFillType st.1 ∧
    (applyFill o st).1.2 = fillFunction (nextFillType st.1) o ∧
    nextFillType FillType.euclidean = FillType.random ∧
    nextFillType FillType.random = FillType.glitch ∧
    nextFillType FillType.glitch = FillType.euclidean ∧
    (applyFillType k o st).1 = k ∧
    (applyFillType k o st).2 = fillFunction k o ∧
    (applyFill o' (applyFillType k o st)).2 = nextFillType k :=
  ⟨rfl, rfl, rfl, rfl, rfl, rfl, rfl, rfl, rfl⟩

/-- `LOOKAHEAD` constant of sequencer.ts (seconds). -/
def LOOKAHEAD : Rat := 1/10

/-- `SCHEDULE_AHEAD` constant of sequencer.ts (seconds). -/
def SCHEDULE_AHEAD : Rat := 1/20

/-- One sixteenth note at the given tempo: `60 / tempo / 4`. -/
def stepDuration (tempo : Rat) : Rat := 60 / tempo / 4

/-- Scheduler cursor state: `currentStep` and `nextStepTime` of sequencer.ts. -/
structure TickState where
  currentStep : Nat
  nextStepTime : Rat

/-- The swing offset added when advancing past step `step`
(`isOffBeat ? stepDuration * swing * 0.3 : 0`). -/
def swingOffset (tempo swing : Rat) (step : Nat) : Rat :=
  if step % 2 = 1 then stepDuration tempo * swing * (3/10) else 0

/-- One iteration of the scheduler's while-loop advance: bump the step cursor
modulo `STEPS` and push `nextStepTime` forward by a step plus swing. -/
def advanceState (tempo swing : Rat) (st : TickState) : TickState :=
  ⟨(st.currentStep + 1) % STEPS,
    st.nextStepTime + stepDuration tempo + swingOffset tempo swing st.currentStep⟩

/-- The `scheduler` tick of sequencer.ts: while `nextStepTime < now + LOOKAHEAD`,
dispatch `(currentStep, nextStepTime)` and advance. The source loop terminates
because `nextStepTime` grows by at least one (positive) step duration per pass;
callers supply sufficient fuel for the window. Returns the dispatched events in
order together with the final cursor state. -/
def schedulerTick (tempo swing now : Rat) : Nat → TickState → List (Nat × Rat) × TickState
  | 0, st => ([], st)
  | fuel + 1, st =>
      if st.nextStepTime < now + LOOKAHEAD then
        let rest := schedulerTick tempo swing now fuel (advanceState tempo swing st)
        ((st.currentStep, st.nextStepTime) :: rest.1, rest.2)
      else ([], st)

/-- A run of scheduler ticks: each list entry is one tick's clock reading
`now` (and its fuel); events of all ticks are concatenated in order. -/
def runScheduler (tempo swing : Rat) : List (Rat × Nat) → TickState → List (Nat × Rat) × TickState
  | [], st => ([], st)
  | (now, fuel) :: ticks, st =>
      let r := schedulerTick tempo swing now fuel st
      let rest := runScheduler tempo swing ticks r.2
      (r.1 ++ rest.1, rest.2)

/-- The accumulated `nextStepTime` value at which the `k`-th dispatched step
fires, for a run started at step 0 and time `t0`: the recurrence adds one step
duration plus the swing offset of the step just dispatched. -/
def dispatchTime (tempo swing t0 : Rat) : Nat → Rat
  | 0 => t0
  | k + 1 =>
      dispatchTime tempo swing t0 k + stepDuration tempo +
        swingOffset tempo swing (k % STEPS)

/-- The scheduler cursor state after `k` dispatches from `⟨0, t0⟩`. -/
def idealState (tempo swing t0 : Rat) (k : Nat) : TickState :=
  ⟨k % STEPS, dispatchTime tempo swing t0 k⟩

theorem advance_idealState (tempo swing t0 : Rat) (k : Nat) :
    advanceState tempo swing (idealState tempo swing t0 k) =
      idealState tempo swing t0 (k + 1) := by
  simp only [advanceState, idealState, dispatchTime]
  congr 1
  show (k % 16 + 1) % 16 = (k + 1) % 16
  omega

theorem schedulerTick_ideal (tempo swing now t0 : Rat) :
    ∀ fuel k, ∃ m,
      schedulerTick tempo swing now fuel (idealState tempo swing t0 k) =
        ((List.range m).map
            (fun j => ((k + j) % STEPS, dispatchTime tempo swing t0 (k + j))),
          idealState tempo swing t0 (k + m)) := by
  intro fuel
  induction fuel with
  | zero => intro k; exact ⟨0, by simp [schedulerTick]⟩
  | succ n ih =>
      intro k
      by_cases hc : (idealState tempo swing t0 k).nextStepTime < now + LOOKAHEAD
      · obtain ⟨m, hm⟩ := ih (k + 1)
        refine ⟨m + 1, ?_⟩
        simp only [schedulerTick, if_pos hc, advance_idealState, hm]
        simp only [Prod.mk.injEq]
        refine ⟨?_, ?_⟩
        · rw [List.range_succ_eq_map, List.map_cons, List.map_map]
          simp only [Nat.add_zero, idealState]
          congr 1
          apply List.map_congr_left
          intro j hj
          simp only [Function.comp_apply]
          have e : k + 1 + j = k + (j + 1) := by omega
          rw [e]
        · have e : k + 1 + m = k + (m + 1) := by omega
          rw [e]
      · refine ⟨0, ?_⟩
        simp [schedulerTick, if_neg hc]

theorem runScheduler_ideal (tempo swing t0 : Rat) :
    ∀ (ticks : List (Rat × Nat)) (k : Nat), ∃ m,
      runScheduler tempo swing ticks (idealState tempo swing t0 k) =
        ((List.range m).map
            (fun j => ((k + j) % STEPS, dispatchTime tempo swing t0 (k + j))),
          idealState tempo swing t0 (k + m)) := by
  intro ticks
  induction ticks with
  | nil => intro k; exact ⟨0, by simp [runScheduler]⟩
  | cons tick ticks ih =>
      intro k
      obtain ⟨now, fuel⟩ := tick
      obtain ⟨m1, h1⟩ := schedulerTick_ideal tempo swing now t0 fuel k
      obtain ⟨m2, h2⟩ := ih (k + m1)
      refine ⟨m1 + m2, ?_⟩
      simp only [runScheduler, h1, h2]
      simp only [Prod.mk.injEq]
      refine ⟨?_, ?_⟩
      · rw [List.range_add, List.map_append, List.map_map]
        congr 1
        apply List.map_congr_left
        intro j hj
        simp only [Function.comp_apply]
        have e : k + m1 + j = k + (m1 + j) := by omega
        rw [e]
      · have e : k + m1 + m2 = k + (m1 + m2) := by omega
        rw [e]

/-- C1: over any run of scheduler ticks (any sequence of clock readings `now`,
any fuel), the sequence of dispatched steps from a start at step 0 and time
`t0` is a prefix of the ideal schedule: the `k`-th dispatch (counting across
all ticks) is exactly step `k % 16` at time `dispatchTime k`, the accumulated
`nextStepTime` value — so each step index 0..15 occurs exactly once per block
of 16 consecutive dispatches, in strictly increasing order wrapping at 16, and
the dispatched times never depend on any tick's `now` (the event list is the
same map regardless of `ticks`); moreover `SCHEDULE_AHEAD < LOOKAHEAD`. -/
theorem scheduler_dispatches_ideal_grid (tempo swing t0 : Rat)
    (ticks : List (Rat × Nat)) :
    SCHEDULE_AHEAD < LOOKAHEAD ∧
    (runScheduler tempo swing ticks ⟨0, t0⟩).1 =
      (List.range (runScheduler tempo swing ticks ⟨0, t0⟩).1.length).map
        (fun k => (k % STEPS, dispatchTime tempo swing t0 k)) := by
  refine ⟨by norm_num [SCHEDULE_AHEAD, LOOKAHEAD], ?_⟩
  have h0 : (⟨0, t0⟩ : TickState) = idealState tempo swing t0 0 := by
    simp [idealState, dispatchTime]
  obtain ⟨m, hm⟩ := runScheduler_ideal tempo swing t0 ticks 0
  rw [h0, hm]
  simp

theorem dispatchTime_closed (tempo swing t0 : Rat) :
    ∀ k, dispatchTime tempo swing t0 k =
      t0 + k * stepDuration tempo +
        ((k / 2 : Nat) : Rat) * (stepDuration tempo * swing * (3/10)) := by
  intro k
  induction k with
  | zero => simp [dispatchTime]
  | succ k ih =>
      simp only [dispatchTime, swingOffset, ih]
      by_cases hk : k % 2 = 1
      · rw [if_pos (show (k % STEPS) % 2 = 1 from
          show (k % 16) % 2 = 1 by omega)]
        have h2 : ((k + 1) / 2 : Nat) = k / 2 + 1 := by omega
        rw [h2]
        push_cast
        ring
      · rw [if_neg (show ¬ (k % STEPS) % 2 = 1 from
          show ¬ (k % 16) % 2 = 1 by omega)]
        have h2 : ((k + 1) / 2 : Nat) = k / 2 := by omega
        rw [h2]
        push_cast
        ring

/-- C4 counterexample: at tempo 120, swing 1, start time 0, the third
dispatched step (global index 2, an even step) fires off the unswung grid
(offset `3/80 ≠ 0`), while the second (index 1, an odd step) fires exactly on
the grid — refuting the claim that only odd-indexed steps are dispatched with
a nonzero offset relative to the unswung sixteenth-note grid. -/
theorem swing_offsets_even_step_cex :
    dispatchTime 120 1 0 2 - ((2 : Nat) : Rat) * stepDuration 120 = 3/80 ∧
    (3 : Rat)/80 ≠ 0 ∧
    (2 : Nat) % 2 = 0 ∧
    dispatchTime 120 1 0 1 - ((1 : Nat) : Rat) * stepDuration 120 = 0 ∧
    (1 : Nat) % 2 = 1 := by
  refine ⟨?_, by norm_num, rfl, ?_, rfl⟩ <;>
    norm_num [dispatchTime, swingOffset, stepDuration, STEPS]

/-- C4 (amended): the swing offset computed at each odd step is added to the
time of every subsequent step, so relative to the unswung grid the `k`-th
dispatched step carries the cumulative offset `⌊k/2⌋ * stepDuration * s * 0.3`
(zero for steps 0 and 1, nonzero for every step `k ≥ 2` once `s > 0`, even and
odd alike); the offset is zero when `s = 0` and monotonically increasing in
`s`. -/
theorem swing_offsets_amended (tempo s s' t0 : Rat) (k : Nat)
    (htempo : 0 < tempo) (hss : s ≤ s') :
    dispatchTime tempo s t0 k - (t0 + k * stepDuration tempo) =
      ((k / 2 : Nat) : Rat) * (stepDuration tempo * s * (3/10)) ∧
    dispatchTime tempo 0 t0 k - (t0 + k * stepDuration tempo) = 0 ∧
    dispatchTime tempo s t0 k - (t0 + k * stepDuration tempo) ≤
      dispatchTime tempo s' t0 k - (t0 + k * stepDuration tempo) := by
  have hd : 0 < stepDuration tempo := by unfold stepDuration; positivity
  refine ⟨by rw [dispatchTime_closed]; ring, by rw [dispatchTime_closed]; ring, ?_⟩
  rw [dispatchTime_closed, dispatchTime_closed]
  have hfac : (0 : Rat) ≤ ((k / 2 : Nat) : Rat) * stepDuration tempo * (3/10) := by
    positivity
  nlinarith [mul_le_mul_of_nonneg_left hss hfac]

theorem swing_offsets_amended_witness :
    ((0 : Rat) < 120 ∧ (1 : Rat)/2 ≤ 1 ∧
      (dispatchTime 120 (1/2) 0 4 - (0 + (4 : Nat) * stepDuration 120) =
          (((4 : Nat) / 2 : Nat) : Rat) * (stepDuration 120 * (1/2) * (3/10)) ∧
        dispatchTime 120 0 0 4 - (0 + (4 : Nat) * stepDuration 120) = 0 ∧
        dispatchTime 120 (1/2) 0 4 - (0 + (4 : Nat) * stepDuration 120) ≤
          dispatchTime 120 1 0 4 - (0 + (4 : Nat) * stepDuration 120))) :=
  ⟨by norm_num, by norm_num,
    swing_offsets_amended 120 (1/2) 1 0 4 (by norm_num) (by norm_num)⟩

/-- Drum voices, in track order (`TRACK_VOICES` of sequencer.ts). -/
inductive DrumVoice where
  | kick
  | snare
  | hihatClosed
  | hihatOpen
  | perc
  | accent
deriving DecidableEq, Repr

/-- `TRACK_VOICES`: the 1:1 map from track index to drum voice. -/
def TRACK_VOICES (t : Fin TRACKS) : DrumVoice :=
  [DrumVoice.kick, DrumVoice.snare, DrumVoice.hihatClosed,
    DrumVoice.hihatOpen, DrumVoice.perc, DrumVoice.accent].getD t.val DrumVoice.kick

/-- One synthesis request sent to the external drum engine
(`triggerDrum(voice, time, velocity)`). -/
structure SynthRequest where
  voice : DrumVoice
  time : Rat
  velocity : Rat
deriving DecidableEq, Repr

/-- The random draws consumed while dispatching one step (one field per
`Math.random()` call site of `scheduleStep` / `scheduleStutter`). -/
structure StepOracle where
  baseR : Fin TRACKS → Rat
  stutterGate : Fin TRACKS → Rat
  stutterCountR : Fin TRACKS → Rat
  jitterR : Fin TRACKS → Nat → Rat

/-- All random draws of a step oracle lie in `[0,1)`, the range of
`Math.random()`. -/
def stepOracleValid (o : StepOracle) : Prop :=
  (∀ t, 0 ≤ o.baseR t ∧ o.baseR t < 1) ∧
  (∀ t i, 0 ≤ o.jitterR t i ∧ o.jitterR t i < 1)

/-- `scheduleStutter` from sequencer.ts: map the stutter rate to one of the
subdivision multipliers {2,4,8,16}, choose a repeat count, and emit that many
decaying, jittered repeats after `startTime`. -/
def scheduleStutter (voice : DrumVoice) (startTime stepDur baseVelocity rate rc : Rat)
    (jr : Nat → Rat) : List SynthRequest :=
  let divIndex := min (Int.toNat ⌊rate * 4⌋) 3
  let subdivision := (([2, 4, 8, 16] : List Nat).getD divIndex 0)
  let stutterInterval := stepDur / (subdivision : Rat)
  let maxStutters := Int.toNat ⌊2 + rate * 6⌋
  let numStutters := Int.toNat ⌊rc * (maxStutters : Rat)⌋ + 1
  (List.range numStutters).map (fun (idx : Nat) =>
    let i : Nat := idx + 1
    { voice := voice
      time := startTime + stutterInterval * (i : Rat)
      velocity := baseVelocity * (1 - ((i : Rat) / ((numStutters : Rat) + 2)) * (1/2)) *
        (7/10 + jr i * (3/10)) })

/-- `scheduleStep` from sequencer.ts: for each track with a nonzero cell at
this step, emit `subdiv` equally spaced sub-hits with a humanised base
velocity and per-index decay, plus (behind the stutter gates) one stutter
burst; the whole step dispatch is the concatenation over tracks. -/
def scheduleStep (p : Pattern) (stutterRate stutterChance tempo : Rat)
    (step : Fin STEPS) (time : Rat) (o : StepOracle) : List SynthRequest :=
  let stepDur := stepDuration tempo
  ((List.finRange TRACKS).map (fun track =>
    let subdiv := p (track, step)
    if 0 < subdiv then
      let baseVelocity := 4/5 + o.baseR track * (1/5)
      let interval := stepDur / (subdiv : Rat)
      let subs := (List.range subdiv).map (fun (i : Nat) =>
        { voice := TRACK_VOICES track
          time := time + (i : Rat) * interval
          velocity := baseVelocity * (1 - (i : Rat) * (2/25)) : SynthRequest })
      let stut :=
        if 1/20 < stutterRate ∧ 1/20 < stutterChance ∧
            o.stutterGate track < stutterChance then
          scheduleStutter (TRACK_VOICES track) time stepDur baseVelocity stutterRate
            (o.stutterCountR track) (o.jitterR track)
        else []
      subs ++ stut
    else [])).flatten

theorem subhit_velocity_bounds (base : Rat) (i : Nat)
    (hb0 : 4/5 ≤ base) (hb1 : base ≤ 1) (hi : i ≤ 3) :
    1/10 ≤ base * (1 - (i : Rat) * (2/25)) ∧ base * (1 - (i : Rat) * (2/25)) ≤ 1 := by
  have hic : (i : Rat) ≤ 3 := by exact_mod_cast hi
  have hic0 : (0 : Rat) ≤ (i : Rat) := Nat.cast_nonneg i
  constructor <;> nlinarith

theorem stutter_velocity_bounds (base r2 : Rat) (i n : Nat)
    (hb0 : 4/5 ≤ base) (hb1 : base ≤ 1) (h20 : 0 ≤ r2) (h21 : r2 < 1)
    (hi1 : 1 ≤ i) (hin : i ≤ n) :
    1/10 ≤ base * (1 - ((i : Rat) / ((n : Rat) + 2)) * (1/2)) * (7/10 + r2 * (3/10)) ∧
    base * (1 - ((i : Rat) / ((n : Rat) + 2)) * (1/2)) * (7/10 + r2 * (3/10)) ≤ 1 := by
  have hn2 : (0 : Rat) < (n : Rat) + 2 := by positivity
  have hq0 : (0 : Rat) ≤ (i : Rat) / ((n : Rat) + 2) := by positivity
  have hq1 : (i : Rat) / ((n : Rat) + 2) ≤ 1 := by
    rw [div_le_one hn2]
    have hcast : (i : Rat) ≤ (n : Rat) := by exact_mod_cast hin
    linarith
  have hbase0 : (0 : Rat) ≤ base := by linarith
  have hd0 : (1 : Rat)/2 ≤ 1 - ((i : Rat) / ((n : Rat) + 2)) * (1/2) := by linarith
  have hd0' : (0 : Rat) ≤ 1 - ((i : Rat) / ((n : Rat) + 2)) * (1/2) := by linarith
  have hd1 : 1 - ((i : Rat) / ((n : Rat) + 2)) * (1/2) ≤ 1 := by linarith
  have hr2 : (0 : Rat) ≤ r2 * (3/10) := by positivity
  have hj0 : (7 : Rat)/10 ≤ 7/10 + r2 * (3/10) := by linarith
  have hj1 : 7/10 + r2 * (3/10) ≤ 1 := by nlinarith
  have hstep1 : (4 : Rat)/5 * (1/2) ≤ base * (1 - ((i : Rat) / ((n : Rat) + 2)) * (1/2)) :=
    mul_le_mul hb0 hd0 (by norm_num) hbase0
  have hstep2 : ((4 : Rat)/5 * (1/2)) * (7/10) ≤
      (base * (1 - ((i : Rat) / ((n : Rat) + 2)) * (1/2))) * (7/10 + r2 * (3/10)) :=
    mul_le_mul hstep1 hj0 (by norm_num) (mul_nonneg hbase0 hd0')
  have hup1 : base * (1 - ((i : Rat) / ((n : Rat) + 2)) * (1/2)) ≤ 1 :=
    mul_le_one₀ hb1 hd0' hd1
  have hup2 : (base * (1 - ((i : Rat) / ((n : Rat) + 2)) * (1/2))) *
      (7/10 + r2 * (3/10)) ≤ 1 :=
    mul_le_one₀ hup1 (by linarith) hj1
  constructor
  · linarith
  · exact hup2

/-- C6: every synthesis request emitted while dispatching a step — the
subdivision sub-hits and every stutter repeat — carries a velocity in
`[1/10, 1]`, for every outcome of the random draws (all in `[0,1)`) and any
pattern satisfying the cell invariant. -/
theorem scheduleStep_velocity_in_range (p : Pattern) (rate chance tempo time : Rat)
    (step : Fin STEPS) (o : StepOracle) (hp : patInv p) (hov : stepOracleValid o) :
    ∀ req ∈ scheduleStep p rate chance tempo step time o,
      1/10 ≤ req.velocity ∧ req.velocity ≤ 1 := by
  intro req hreq
  simp only [scheduleStep, List.mem_flatten, List.mem_map] at hreq
  obtain ⟨l, ⟨track, htrack, rfl⟩, hreql⟩ := hreq
  by_cases hsub : 0 < p (track, step)
  · simp only [if_pos hsub, List.mem_append] at hreql
    have hr := hov.1 track
    have hb0 : 4/5 ≤ 4/5 + o.baseR track * (1/5) := by nlinarith [hr.1]
    have hb1 : 4/5 + o.baseR track * (1/5) ≤ 1 := by nlinarith [hr.2]
    rcases hreql with h | h
    · rw [List.mem_map] at h
      obtain ⟨i, hi, rfl⟩ := h
      rw [List.mem_range] at hi
      have hi3 : i ≤ 3 := by
        have := hp (track, step)
        simp only [MAX_SUBDIV] at this
        omega
      exact subhit_velocity_bounds _ i hb0 hb1 hi3
    · by_cases hg : 1/20 < rate ∧ 1/20 < chance ∧ o.stutterGate track < chance
      · rw [if_pos hg] at h
        simp only [scheduleStutter, List.mem_map] at h
        obtain ⟨idx, hidx, rfl⟩ := h
        rw [List.mem_range] at hidx
        have hj := hov.2 track (idx + 1)
        exact stutter_velocity_bounds _ _ (idx + 1) _ hb0 hb1 hj.1 hj.2
          (by omega) (by omega)
      · rw [if_neg hg] at h
        exact absurd h (List.not_mem_nil _)
  · simp only [if_neg hsub] at hreql
    exact absurd hreql (List.not_mem_nil _)

/-- The all-zero step oracle, a concrete valid draw assignment. -/
def zeroStepOracle : StepOracle := ⟨fun _ => 0, fun _ => 0, fun _ => 0, fun _ _ => 0⟩

theorem scheduleStep_velocity_in_range_witness :
    (patInv (fun _ => 1) ∧
      stepOracleValid zeroStepOracle ∧
      (1/10 ≤ ((4 : Rat)/5 + zeroStepOracle.baseR 0 * (1/5)) *
          (1 - ((0 : Nat) : Rat) * (2/25)) ∧
        ((4 : Rat)/5 + zeroStepOracle.baseR 0 * (1/5)) *
          (1 - ((0 : Nat) : Rat) * (2/25)) ≤ 1)) := by
  have h1 : patInv (fun _ => 1) := by intro x; norm_num
  have h2 : stepOracleValid zeroStepOracle :=
    ⟨fun t => by constructor <;> norm_num [zeroStepOracle],
      fun t i => by constructor <;> norm_num [zeroStepOracle]⟩
  refine ⟨h1, h2, ?_⟩
  refine scheduleStep_velocity_in_range (fun _ => 1) 0 0 120 0 0 zeroStepOracle h1 h2
    { voice := TRACK_VOICES 0
      time := (0 : Rat) + ((0 : Nat) : Rat) *
        (stepDuration 120 / (((fun (_ : Pos) => (1 : Nat)) ((0 : Fin TRACKS), (0 : Fin STEPS)) : Nat) : Rat))
      velocity := ((4 : Rat)/5 + zeroStepOracle.baseR 0 * (1/5)) *
        (1 - ((0 : Nat) : Rat) * (2/25)) } ?_
  simp only [scheduleStep, List.mem_flatten, List.mem_map]
  refine ⟨_, ⟨(0 : Fin TRACKS), List.mem_finRange _, rfl⟩, ?_⟩
  rw [if_pos (show 0 < (fun (_ : Pos) => (1 : Nat)) ((0 : Fin TRACKS), (0 : Fin STEPS)) by norm_num)]
  apply List.mem_append_left
  exact List.mem_map_of_mem _ (List.mem_range.mpr (by norm_num))

/-- All grid positions in the iteration order of the source's nested
`for (t) for (s)` loops. -/
def allPositions : List Pos :=
  ((List.finRange TRACKS).map
    (fun t => (List.finRange STEPS).map (fun s => ((t, s) : Pos)))).flatten

/-- The currently active cells, in scan order (`activeSteps` collection of
`prunePattern` / `getPatternDensity`). -/
def activeList (p : Pattern) : List Pos :=
  allPositions.filter (fun x => decide (0 < p x))

/-- Number of active cells (the counting loop of `getPatternDensity`). -/
def activeCount (p : Pattern) : Nat := (activeList p).length

/-- `getPatternDensity` from sequencer.ts: active cells over `TRACKS * STEPS`. -/
def getPatternDensity (p : Pattern) : Rat :=
  (activeCount p : Rat) / ((TRACKS * STEPS : Nat) : Rat)

/-- The destructuring swap `[l[i], l[j]] = [l[j], l[i]]`; identity when either
index is out of range (which never happens on the real domain). -/
def swapIdx {α : Type} (l : List α) (i j : Nat) : List α :=
  match l[i]?, l[j]? with
  | some a, some b => (l.set i b).set j a
  | _, _ => l

/-- The Fisher–Yates shuffle loop of `prunePattern`
(`for (i = length-1; i > 0; i--) swap i (floor(r*(i+1)))`); the argument is
the current loop index `i`. -/
def fisherYates {α : Type} (rs : Nat → Rat) (l : List α) : Nat → List α
  | 0 => l
  | i + 1 => fisherYates rs (swapIdx l (i + 1) (randIndex (rs (i + 1)) (i + 2))) i

/-- `prunePattern` from sequencer.ts: collect active cells, shuffle them, and
zero the first `min count length` of them. -/
def prunePattern (p : Pattern) (count : Nat) (rs : Nat → Rat) : Pattern :=
  let activeSteps := activeList p
  let shuffled := fisherYates rs activeSteps (activeSteps.length - 1)
  let toRemove := min count activeSteps.length
  (shuffled.take toRemove).foldl (fun q x => Function.update q x 0) p

/-- `DENSITY_SOFT_CAP` constant (0.35). -/
def DENSITY_SOFT_CAP : Rat := 7/20

/-- `DENSITY_HARD_CAP` constant (0.50). -/
def DENSITY_HARD_CAP : Rat := 1/2

/-- The random draws consumed by one `mutatePattern` invocation (one field
per `Math.random()` call site; the branches are mutually exclusive, so each
branch reads its own draws). -/
structure MutOracle where
  mutationType : Rat
  flipCount : Rat
  flipT : Nat → Rat
  flipS : Nat → Rat
  flipR : Nat → Rat
  shiftT : Rat
  shiftDir : Rat
  remT : Rat
  remExtra : Rat
  remIdx : Nat → Rat
  swapT : Rat
  swapS1 : Rat
  swapS2 : Rat
  clearT : Rat
  clearStart : Rat
  clearLen : Rat
  eucT : Rat
  eucHit : Rat
  eucRot : Rat
  shuffleR : Nat → Rat

/-- One iteration of the flip-steps mutation (`mutationType < 0.25`): pick a
random cell; an active cell is turned off with probability `removalBias`, an
inactive one turned on with probability `1 - removalBias`. -/
def flipStep (o : MutOracle) (removalBias : Rat) (q : Pattern) (i : Nat) : Pattern :=
  let t := randTrack (o.flipT i)
  let s := randStep (o.flipS i)
  if 0 < q (t, s) then
    (if o.flipR i < removalBias then Function.update q (t, s) 0 else q)
  else
    (if removalBias < o.flipR i then Function.update q (t, s) 1 else q)

/-- Flip-steps mutation: `floor(r*3)+1` sequential cell flips. -/
def mutFlip (o : MutOracle) (removalBias : Rat) (p : Pattern) : Pattern :=
  (List.range (randIndex o.flipCount 3 + 1)).foldl (flipStep o removalBias) p

/-- Shift mutation (`0.25 ≤ mutationType < 0.4`): cyclically shift one random
track's row by one step (`shifted[(s - direction + STEPS) % STEPS]`). -/
def mutShift (o : MutOracle) (p : Pattern) : Pattern :=
  let t := randTrack o.shiftT
  let direction : Int := if o.shiftDir < 1/2 then 1 else -1
  fun x =>
    if x.1 = t then
      p (t, ⟨(((x.2.val : Int) - direction + (STEPS : Int)).toNat) % STEPS,
        Nat.mod_lt _ (by norm_num)⟩)
    else p x

/-- The removal loop of the remove-hits mutation: `n` passes, each deleting a
random entry of the remaining active list and zeroing that cell. -/
def mutRemoveGo (t : Fin TRACKS) (o : MutOracle) :
    Nat → Nat → List (Fin STEPS) → Pattern → Pattern
  | _, 0, _, p => p
  | i, n + 1, acts, p =>
      let idx := randIndex (o.remIdx i) acts.length
      match acts[idx]? with
      | some s => mutRemoveGo t o (i + 1) n (acts.eraseIdx idx) (Function.update p (t, s) 0)
      | none => mutRemoveGo t o (i + 1) n acts p

/-- Remove-hits mutation (`0.4 ≤ mutationType < 0.65`): remove one or two
active cells from one random track. -/
def mutRemove (o : MutOracle) (p : Pattern) : Pattern :=
  let t := randTrack o.remT
  let activeSteps := (List.finRange STEPS).filter (fun s => decide (0 < p (t, s)))
  if 0 < activeSteps.length then
    let removeCount := min activeSteps.length (1 + (if o.remExtra < 3/10 then 1 else 0))
    mutRemoveGo t o 0 removeCount activeSteps p
  else p

/-- Swap mutation (`0.65 ≤ mutationType < 0.75`): swap the values of two
random cells within one random track. -/
def mutSwap (o : MutOracle) (p : Pattern) : Pattern :=
  let t := randTrack o.swapT
  let s1 := randStep o.swapS1
  let s2 := randStep o.swapS2
  Function.update (Function.update p (t, s1) (p (t, s2))) (t, s2) (p (t, s1))

/-- Clear-section mutation (`0.75 ≤ mutationType < 0.85`): zero a contiguous
run of 2–5 steps on one random track. -/
def mutClear (o : MutOracle) (p : Pattern) : Pattern :=
  let t := randTrack o.clearT
  let start := randIndex o.clearStart 12
  let len := randIndex o.clearLen 4 + 2
  fun x => if x.1 = t ∧ start ≤ x.2.val ∧ x.2.val < start + len then 0 else p x

/-- Sparse-euclidean mutation (`mutationType ≥ 0.85`): replace one random
track's row with a sparser euclidean rhythm, rotated randomly. -/
def mutEuclid (o : MutOracle) (p : Pattern) : Pattern :=
  let t := randTrack o.eucT
  let hits : Int :=
    max 1 ((([2, 1, 4, 1, 2, 1] : List Int).getD t.val 0) + (randIndex o.eucHit 2 : Int) - 1)
  let rhythm := euclidean hits STEPS
  let rotation := randIndex o.eucRot STEPS
  fun x =>
    if x.1 = t then (if rhythm.getD ((x.2.val + rotation) % STEPS) false then 1 else 0)
    else p x

/-- The `excess` computed in `mutatePattern`'s forced-pruning path:
`ceil((density - DENSITY_SOFT_CAP) * TRACKS * STEPS)`. -/
def pruneExcess (p : Pattern) : Int :=
  Int.ceil ((getPatternDensity p - DENSITY_SOFT_CAP) * ((TRACKS * STEPS : Nat) : Rat))

/-- `mutatePattern` from sequencer.ts: above the hard cap, skip the mutation
menu and force-prune `max 2 excess` cells; otherwise compute the removal bias
and pick one of the six mutation operators by the `mutationType` draw. -/
def mutatePattern (p : Pattern) (o : MutOracle) : Pattern :=
  let density := getPatternDensity p
  if DENSITY_HARD_CAP < density then
    prunePattern p (Int.toNat (max 2 (pruneExcess p))) o.shuffleR
  else
    let removalBias :=
      if DENSITY_SOFT_CAP < density then
        7/10 + (density - DENSITY_SOFT_CAP) / (DENSITY_HARD_CAP - DENSITY_SOFT_CAP) * (1/4)
      else 2/5
    if o.mutationType < 1/4 then mutFlip o removalBias p
    else if o.mutationType < 2/5 then mutShift o p
    else if o.mutationType < 13/20 then mutRemove o p
    else if o.mutationType < 3/4 then mutSwap o p
    else if o.mutationType < 17/20 then mutClear o p
    else mutEuclid o p

theorem patInv_update (p : Pattern) (x : Pos) (v : Nat)
    (hp : patInv p) (hv : v ≤ MAX_SUBDIV) : patInv (Function.update p x v) := by
  intro y
  by_cases h : y = x
  · subst h; simpa using hv
  · rw [Function.update_noteq h]; exact hp y

theorem patInv_foldl {β : Type} (f : Pattern → β → Pattern)
    (hf : ∀ q b, patInv q → patInv (f q b)) :
    ∀ (l : List β) (p : Pattern), patInv p → patInv (l.foldl f p) := by
  intro l
  induction l with
  | nil => exact fun p hp => hp
  | cons b l ih => exact fun p hp => ih _ (hf p b hp)

theorem patInv_toggleStep (p : Pattern) (track step : Int) (hp : patInv p) :
    patInv (toggleStep p track step).1 := by
  unfold toggleStep
  split
  · exact patInv_update p _ _ hp (by simp only [MAX_SUBDIV]; omega)
  · exact hp

theorem patInv_setStep (p : Pattern) (track step value : Int) (hp : patInv p) :
    patInv (setStep p track step value) := by
  unfold setStep
  split
  · exact patInv_update p _ _ hp (by simp only [MAX_SUBDIV]; omega)
  · exact hp

theorem patInv_fillEuclidean (o : FillOracle) : patInv (fillEuclidean o) := by
  intro x
  simp only [fillEuclidean]
  split <;> norm_num

theorem patInv_fillRandom (o : FillOracle) : patInv (fillRandom o) := by
  intro x
  simp only [fillRandom]
  split <;> norm_num

theorem patInv_fillGlitch (o : FillOracle) : patInv (fillGlitch o) := by
  intro x
  simp only [fillGlitch]
  split_ifs <;> first | exact patInv_fillEuclidean o x | norm_num

theorem patInv_flipStep (o : MutOracle) (b : Rat) (q : Pattern) (i : Nat)
    (hq : patInv q) : patInv (flipStep o b q i) := by
  simp only [flipStep]
  split_ifs <;> first | exact hq | exact patInv_update q _ _ hq (by norm_num)

theorem patInv_mutFlip (o : MutOracle) (b : Rat) (p : Pattern) (hp : patInv p) :
    patInv (mutFlip o b p) :=
  patInv_foldl _ (fun q i hq => patInv_flipStep o b q i hq) _ p hp

theorem patInv_mutShift (o : MutOracle) (p : Pattern) (hp : patInv p) :
    patInv (mutShift o p) := by
  intro x
  simp only [mutShift]
  split
  · exact hp _
  · exact hp x

theorem patInv_mutRemoveGo (t : Fin TRACKS) (o : MutOracle) :
    ∀ (n i : Nat) (acts : List (Fin STEPS)) (p : Pattern), patInv p →
      patInv (mutRemoveGo t o i n acts p) := by
  intro n
  induction n with
  | zero => intro i acts p hp; exact hp
  | succ n ih =>
      intro i acts p hp
      simp only [mutRemoveGo]
      split
      · exact ih _ _ _ (patInv_update p _ _ hp (by norm_num))
      · exact ih _ _ _ hp

theorem patInv_mutRemove (o : MutOracle) (p : Pattern) (hp : patInv p) :
    patInv (mutRemove o p) := by
  simp only [mutRemove]
  split_ifs <;> first | exact patInv_mutRemoveGo _ o _ _ _ p hp | exact hp

theorem patInv_mutSwap (o : MutOracle) (p : Pattern) (hp : patInv p) :
    patInv (mutSwap o p) := by
  unfold mutSwap
  exact patInv_update _ _ _ (patInv_update p _ _ hp (hp _)) (hp _)

theorem patInv_mutClear (o : MutOracle) (p : Pattern) (hp : patInv p) :
    patInv (mutClear o p) := by
  intro x
  simp only [mutClear]
  split
  · norm_num
  · exact hp x

theorem patInv_mutEuclid (o : MutOracle) (p : Pattern) (hp : patInv p) :
    patInv (mutEuclid o p) := by
  intro x
  simp only [mutEuclid]
  split_ifs <;> first | exact hp x | norm_num

theorem patInv_prunePattern (p : Pattern) (count : Nat) (rs : Nat → Rat)
    (hp : patInv p) : patInv (prunePattern p count rs) := by
  unfold prunePattern
  exact patInv_foldl _ (fun q x hq => patInv_update q x 0 hq (by norm_num)) _ p hp

theorem patInv_mutatePattern (p : Pattern) (o : MutOracle) (hp : patInv p) :
    patInv (mutatePattern p o) := by
  simp only [mutatePattern]
  split_ifs <;>
    first
      | exact patInv_prunePattern p _ _ hp
      | exact patInv_mutFlip o _ p hp
      | exact patInv_mutShift o p hp
      | exact patInv_mutRemove o p hp
      | exact patInv_mutSwap o p hp
      | exact patInv_mutClear o p hp
      | exact patInv_mutEuclid o p hp

/-- C5: every pattern-writing operation — `toggleStep`, `setStep`,
`clearPattern`, `fillEuclidean`, `fillRandom`, `fillGlitch`, `mutatePattern`,
`prunePattern` — preserves the invariant that every cell of the 6×16 grid
holds a value in `[0, MAX_SUBDIV]`, for every index, value, and random-draw
outcome; the grid dimensions are fixed by the `Pattern` type, mirroring that
every write in the source targets an in-range cell of the fixed arrays. -/
theorem pattern_ops_preserve_invariant (p : Pattern) (hp : patInv p) :
    (∀ track step : Int, patInv (toggleStep p track step).1) ∧
    (∀ track step value : Int, patInv (setStep p track step value)) ∧
    patInv clearPattern ∧
    (∀ o : FillOracle, patInv (fillEuclidean o)) ∧
    (∀ o : FillOracle, patInv (fillRandom o)) ∧
    (∀ o : FillOracle, patInv (fillGlitch o)) ∧
    (∀ o : MutOracle, patInv (mutatePattern p o)) ∧
    (∀ (count : Nat) (rs : Nat → Rat), patInv (prunePattern p count rs)) :=
  ⟨fun track step => patInv_toggleStep p track step hp,
    fun track step value => patInv_setStep p track step value hp,
    fun _ => by norm_num [clearPattern],
    fun o => patInv_fillEuclidean o,
    fun o => patInv_fillRandom o,
    fun o => patInv_fillGlitch o,
    fun o => patInv_mutatePattern p o hp,
    fun count rs => patInv_prunePattern p count rs hp⟩

/-- The all-zero mutation oracle, a concrete draw assignment. -/
def zeroMutOracle : MutOracle :=
  ⟨0, 0, fun _ => 0, fun _ => 0, fun _ => 0, 0, 0, 0, 0, fun _ => 0,
    0, 0, 0, 0, 0, 0, 0, 0, 0, fun _ => 0⟩

theorem pattern_ops_preserve_invariant_witness :
    (patInv (fun _ => 3) ∧
      patInv (toggleStep (fun _ => 3) 1 2).1 ∧
      patInv (mutatePattern (fun _ => 3) zeroMutOracle) ∧
      patInv (prunePattern (fun _ => 3) 2 (fun _ => 0))) :=
  have hp : patInv (fun _ => 3) := fun _ => by norm_num
  ⟨hp,
    (pattern_ops_preserve_invariant (fun _ => 3) hp).1 1 2,
    (pattern_ops_preserve_invariant (fun _ => 3) hp).2.2.2.2.2.2.1 zeroMutOracle,
    (pattern_ops_preserve_invariant (fun _ => 3) hp).2.2.2.2.2.2.2 2 (fun _ => 0)⟩

theorem set_getElem_self_eq {α : Type} :
    ∀ (l : List α) (i : Nat) (h : i < l.length), l.set i (getElem l i h) = l
  | _ :: _, 0, _ => by simp
  | a :: t, i + 1, h => by
      simp only [List.set_cons_succ, List.getElem_cons_succ]
      rw [set_getElem_self_eq t i (by simpa using h)]

theorem swap_cons_perm {α : Type} :
    ∀ (t : List α) (m : Nat) (hm : m < t.length) (c : α),
      ((getElem t m hm) :: t.set m c).Perm (c :: t) := by
  intro t
  induction t with
  | nil => intro m hm c; simp at hm
  | cons d t' ih =>
      intro m hm c
      cases m with
      | zero =>
          simp only [List.getElem_cons_zero, List.set_cons_zero]
          exact List.Perm.swap c d t'
      | succ m =>
          have h' : m < t'.length := by simpa using hm
          simp only [List.getElem_cons_succ, List.set_cons_succ]
          exact (List.Perm.swap d _ _).trans
            (((ih m h' c).cons d).trans (List.Perm.swap c d t'))

theorem swap_set_perm {α : Type} :
    ∀ (l : List α) (i j : Nat) (hij : i < j) (hj : j < l.length)
      (hi : i < l.length),
      ((l.set i (getElem l j hj)).set j (getElem l i hi)).Perm l := by
  intro l
  induction l with
  | nil => intro i j _ hj _; simp at hj
  | cons c t ih =>
      intro i j hij hj hi
      cases i with
      | zero =>
          cases j with
          | zero => omega
          | succ m =>
              have hm : m < t.length := by simpa using hj
              simp only [List.set_cons_zero, List.set_cons_succ,
                List.getElem_cons_succ, List.getElem_cons_zero]
              exact swap_cons_perm t m hm c
      | succ i' =>
          cases j with
          | zero => omega
          | succ j' =>
              have hj' : j' < t.length := by simpa using hj
              have hi' : i' < t.length := by simpa using hi
              simp only [List.set_cons_succ, List.getElem_cons_succ]
              exact (ih i' j' (by omega) hj' hi').cons c

theorem swapIdx_perm {α : Type} (l : List α) (i j : Nat) : (swapIdx l i j).Perm l := by
  unfold swapIdx
  split
  case _ a b hi hj =>
    obtain ⟨hilt, rfl⟩ := List.getElem?_eq_some_iff.mp hi
    obtain ⟨hjlt, rfl⟩ := List.getElem?_eq_some_iff.mp hj
    rcases Nat.lt_trichotomy i j with hij | rfl | hji
    · exact swap_set_perm l i j hij hjlt hilt
    · rw [List.set_set, set_getElem_self_eq l i hilt]
    · rw [List.set_comm _ _ _ (by omega : i ≠ j)]
      exact swap_set_perm l j i hji hilt hjlt
  case _ => exact List.Perm.refl l

theorem fisherYates_perm {α : Type} (rs : Nat → Rat) :
    ∀ (n : Nat) (l : List α), (fisherYates rs l n).Perm l := by
  intro n
  induction n with
  | zero => intro l; exact List.Perm.refl l
  | succ i ih => intro l; exact (ih _).trans (swapIdx_perm l (i + 1) _)

set_option maxRecDepth 4000 in
theorem mem_allPositions : ∀ x : Pos, x ∈ allPositions := by decide

set_option maxRecDepth 4000 in
theorem allPositions_nodup : allPositions.Nodup := by decide

theorem activeList_nodup (p : Pattern) : (activeList p).Nodup :=
  List.Nodup.filter _ allPositions_nodup

theorem mem_activeList (p : Pattern) (x : Pos) : x ∈ activeList p ↔ 0 < p x := by
  simp [activeList, List.mem_filter, mem_allPositions x]

theorem countP_update_zero (l : List Pos) (hnd : l.Nodup) (a : Pos) (ha : a ∈ l)
    (p : Pattern) (hpa : 0 < p a) :
    (l.countP fun x => decide (0 < Function.update p a 0 x)) + 1 =
      l.countP fun x => decide (0 < p x) := by
  obtain ⟨s, t, rfl⟩ := List.append_of_mem ha
  rw [List.nodup_append] at hnd
  obtain ⟨hs, hat, hdisj⟩ := hnd
  rw [List.nodup_cons] at hat
  have has : a ∉ s := fun h => hdisj h (List.mem_cons_self a t)
  have hcs : (s.countP fun x => decide (0 < Function.update p a 0 x)) =
      s.countP fun x => decide (0 < p x) :=
    List.countP_congr (fun x hx => by
      have hxa : x ≠ a := fun h => has (h ▸ hx)
      simp [Function.update_noteq hxa])
  have hct : (t.countP fun x => decide (0 < Function.update p a 0 x)) =
      t.countP fun x => decide (0 < p x) :=
    List.countP_congr (fun x hx => by
      have hxa : x ≠ a := fun h => hat.1 (h ▸ hx)
      simp [Function.update_noteq hxa])
  rw [List.countP_append, List.countP_append, List.countP_cons, List.countP_cons,
    hcs, hct]
  simp only [Function.update_same, hpa, decide_eq_true_eq]
  simp [Nat.lt_irrefl]
  omega

theorem activeCount_eq_countP (p : Pattern) :
    activeCount p = allPositions.countP (fun x => decide (0 < p x)) := by
  unfold activeCount activeList
  rw [List.countP_eq_length_filter]

theorem activeCount_update_zero (p : Pattern) (a : Pos) (hpa : 0 < p a) :
    activeCount (Function.update p a 0) + 1 = activeCount p := by
  rw [activeCount_eq_countP, activeCount_eq_countP]
  exact countP_update_zero allPositions allPositions_nodup a (mem_allPositions a) p hpa

theorem activeCount_fold_remove :
    ∀ (ps : List Pos) (p : Pattern), ps.Nodup → (∀ x ∈ ps, 0 < p x) →
      activeCount (ps.foldl (fun q x => Function.update q x 0) p) + ps.length =
        activeCount p := by
  intro ps
  induction ps with
  | nil => intro p _ _; simp
  | cons a ps ih =>
      intro p hnd hact
      rw [List.nodup_cons] at hnd
      have hstep := activeCount_update_zero p a (hact a (List.mem_cons_self a ps))
      have hrec := ih (Function.update p a 0) hnd.2 (fun x hx => by
        have hxa : x ≠ a := fun h => hnd.1 (h ▸ hx)
        rw [Function.update_noteq hxa]
        exact hact x (List.mem_cons_of_mem a hx))
      simp only [List.foldl_cons, List.length_cons]
      omega

theorem prunePattern_count (p : Pattern) (count : Nat) (rs : Nat → Rat) :
    activeCount (prunePattern p count rs) + min count (activeCount p) =
      activeCount p := by
  simp only [prunePattern]
  have hperm : (fisherYates rs (activeList p) ((activeList p).length - 1)).Perm
      (activeList p) := fisherYates_perm rs _ _
  have hnd : (fisherYates rs (activeList p) ((activeList p).length - 1)).Nodup :=
    hperm.nodup_iff.mpr (activeList_nodup p)
  have hlen : (fisherYates rs (activeList p) ((activeList p).length - 1)).length =
      (activeList p).length := hperm.length_eq
  have htk_nodup : ((fisherYates rs (activeList p) ((activeList p).length - 1)).take
      (min count (activeList p).length)).Nodup :=
    (List.take_sublist _ _).nodup hnd
  have htk_act : ∀ x ∈ (fisherYates rs (activeList p) ((activeList p).length - 1)).take
      (min count (activeList p).length), 0 < p x := fun x hx =>
    (mem_activeList p x).mp (hperm.mem_iff.mp (List.mem_of_mem_take hx))
  have hmain := activeCount_fold_remove _ p htk_nodup htk_act
  rw [List.length_take, hlen] at hmain
  have hmm : min (min count (activeList p).length) (activeList p).length =
      min count (activeList p).length := by omega
  rw [hmm] at hmain
  exact hmain

theorem activeCount_le_total (p : Pattern) : activeCount p ≤ 96 := by
  have h := List.length_filter_le (fun x => decide (0 < p x)) allPositions
  have hlen : allPositions.length = 96 := by decide
  unfold activeCount activeList
  omega

theorem density_hard_cap_iff (p : Pattern) :
    DENSITY_HARD_CAP < getPatternDensity p ↔ 48 < activeCount p := by
  unfold getPatternDensity DENSITY_HARD_CAP
  have h96 : ((TRACKS * STEPS : Nat) : Rat) = 96 := by norm_num
  rw [h96, lt_div_iff₀ (by norm_num : (0 : Rat) < 96)]
  constructor
  · intro h
    by_contra hc
    push_neg at hc
    have : (activeCount p : Rat) ≤ 48 := by exact_mod_cast hc
    linarith
  · intro h
    have : (48 : Rat) < (activeCount p : Rat) := by exact_mod_cast h
    linarith

theorem pruneExcess_eq (p : Pattern) :
    pruneExcess p = (activeCount p : Int) - 33 := by
  unfold pruneExcess getPatternDensity DENSITY_SOFT_CAP
  have h96 : ((TRACKS * STEPS : Nat) : Rat) = 96 := by norm_num
  rw [h96]
  have harith : ((activeCount p : Rat) / 96 - 7/20) * 96 =
      (-168/5 : Rat) + ((activeCount p : Int) : Rat) := by
    rw [sub_mul, div_mul_cancel₀ _ (by norm_num : (96 : Rat) ≠ 0)]
    push_cast
    ring
  rw [harith, Int.ceil_add_int]
  have hceil : ⌈(-168/5 : Rat)⌉ = -33 := by
    rw [Int.ceil_eq_iff]
    constructor <;> norm_num
  rw [hceil]
  omega

/-- C3: when the pattern's density exceeds the hard cap (1/2), a single
`mutatePattern` invocation — for every outcome of the random draws — skips
the mutation menu and runs the forced prune with
`count = max 2 (ceil((density - 0.35) * 96))`; it removes exactly
`min count activeCount` active cells (the prune removes a shuffled selection
of distinct active cells), and therefore strictly reduces the density and
never increases it. -/
theorem mutatePattern_high_density_prunes (p : Pattern) (o : MutOracle)
    (h : DENSITY_HARD_CAP < getPatternDensity p) :
    mutatePattern p o =
      prunePattern p (Int.toNat (max 2 (pruneExcess p))) o.shuffleR ∧
    activeCount (mutatePattern p o) +
      min (Int.toNat (max 2 (pruneExcess p))) (activeCount p) = activeCount p ∧
    getPatternDensity (mutatePattern p o) < getPatternDensity p := by
  have heq : mutatePattern p o =
      prunePattern p (Int.toNat (max 2 (pruneExcess p))) o.shuffleR := by
    simp only [mutatePattern, if_pos h]
  have hcount := prunePattern_count p (Int.toNat (max 2 (pruneExcess p))) o.shuffleR
  refine ⟨heq, by rw [heq]; exact hcount, ?_⟩
  have ha : 48 < activeCount p := (density_hard_cap_iff p).mp h
  have hex : pruneExcess p = (activeCount p : Int) - 33 := pruneExcess_eq p
  have hmin1 : 1 ≤ min (Int.toNat (max 2 (pruneExcess p))) (activeCount p) := by
    rw [hex]
    omega
  have hlt : activeCount (mutatePattern p o) < activeCount p := by
    rw [heq]
    omega
  unfold getPatternDensity
  rw [div_lt_div_iff_of_pos_right (by norm_num : (0 : Rat) < ((TRACKS * STEPS : Nat) : Rat))]
  exact_mod_cast hlt

theorem mutatePattern_high_density_prunes_witness :
    (DENSITY_HARD_CAP < getPatternDensity (fun _ => 1) ∧
      (mutatePattern (fun _ => 1) zeroMutOracle =
        prunePattern (fun _ => 1)
          (Int.toNat (max 2 (pruneExcess (fun _ => 1)))) zeroMutOracle.shuffleR ∧
      activeCount (mutatePattern (fun _ => 1) zeroMutOracle) +
        min (Int.toNat (max 2 (pruneExcess (fun _ => 1))))
          (activeCount (fun _ => 1)) = activeCount (fun _ => 1) ∧
      getPatternDensity (mutatePattern (fun _ => 1) zeroMutOracle) <
        getPatternDensity (fun _ => 1))) :=
  have h : DENSITY_HARD_CAP < getPatternDensity (fun _ => 1) := by
    rw [density_hard_cap_iff]
    decide
  ⟨h, mutatePattern_high_density_prunes (fun _ => 1) zeroMutOracle h⟩

theorem flatten_set_append {α : Type} :
    ∀ (l : List (List α)) (i : Nat) (x : List α), i < l.length →
      ((l.set i (l.getD i [] ++ x)).flatten).Perm (l.flatten ++ x) := by
  intro l
  induction l with
  | nil => intro i x hi; simp at hi
  | cons b t ih =>
      intro i x hi
      cases i with
      | zero =>
          simp only [List.set_cons_zero, List.getD_cons_zero, List.flatten_cons,
            List.append_assoc]
          exact List.Perm.append_left b List.perm_append_comm
      | succ i =>
          have hi' : i < t.length := by simpa using hi
          simp only [List.set_cons_succ, List.getD_cons_succ, List.flatten_cons,
            List.append_assoc]
          exact List.Perm.append_left b (ih i x hi')

theorem bjorkStep_concat (l' : List (List Nat)) (a : List Nat) (i : Nat)
    (hi : i < l'.length) :
    (((l' ++ [a]).set i ((l' ++ [a]).getD i [] ++ (l' ++ [a]).getLastD [])).dropLast) =
      l'.set i (l'.getD i [] ++ a) := by
  rw [List.getD_append _ _ _ _ hi, List.getLastD_concat,
    List.set_append_left _ _ hi, List.dropLast_concat]

theorem bjorkInner_perm_length :
    ∀ (n i : Nat) (l : List (List Nat)), i + 2 * n ≤ l.length →
      (bjorkInner i n l).length = l.length - n ∧
      (bjorkInner i n l).flatten.Perm l.flatten := by
  intro n
  induction n with
  | zero =>
      intro i l _
      exact ⟨by simp [bjorkInner], List.Perm.refl _⟩
  | succ n ih =>
      intro i l h
      rcases List.eq_nil_or_concat l with rfl | ⟨l', a, rfl⟩
      · simp at h
      · simp only [List.concat_eq_append] at h ⊢
        have hi : i < l'.length := by
          simp only [List.length_append, List.length_cons, List.length_nil] at h
          omega
        simp only [bjorkInner]
        rw [bjorkStep_concat l' a i hi]
        have hrec := ih (i + 1) (l'.set i (l'.getD i [] ++ a)) (by
          simp only [List.length_set]
          simp only [List.length_append, List.length_cons, List.length_nil] at h
          omega)
        refine ⟨?_, hrec.2.trans ?_⟩
        · rw [hrec.1]
          simp only [List.length_set, List.length_append, List.length_cons,
            List.length_nil]
          omega
        · refine (flatten_set_append l' i a hi).trans ?_
          have : (l' ++ [a]).flatten = l'.flatten ++ a := by simp
          rw [this]

theorem bjorkWhile_perm :
    ∀ (fuel d s : Nat) (l : List (List Nat)), d + s ≤ l.length →
      (bjorkWhile fuel d s l).flatten.Perm l.flatten := by
  intro fuel
  induction fuel with
  | zero =>
      intro d s l _
      exact List.Perm.refl _
  | succ n ih =>
      intro d s l h
      simp only [bjorkWhile]
      split
      · have hinner := bjorkInner_perm_length (min d s) 0 l (by omega)
        refine ((ih (d - min d s) (min d s) (bjorkInner 0 (min d s) l) ?_).trans
          hinner.2)
        rw [hinner.1]
        omega
      · exact List.Perm.refl _

theorem flatten_map_ite (h : Nat) :
    ∀ (l : List Nat),
      (l.map (fun i => if i < h then [(1 : Nat)] else [0])).flatten =
        l.map (fun i => if i < h then 1 else 0) := by
  intro l
  induction l with
  | nil => simp
  | cons a t ih =>
      simp only [List.map_cons, List.flatten_cons, ih]
      split <;> simp

theorem countP_range_lt (h : Nat) :
    ∀ n, (List.range n).countP (fun i => decide (i < h)) = min h n := by
  intro n
  induction n with
  | zero => simp
  | succ n ih =>
      rw [List.range_succ, List.countP_append, ih]
      by_cases hn : n < h <;> simp [List.countP_cons, hn] <;> try omega

theorem count_one_map_ite (steps h : Nat) (hhs : h ≤ steps) :
    ((List.range steps).map (fun i => if i < h then (1 : Nat) else 0)).count 1 = h := by
  rw [List.count_eq_countP, List.countP_map]
  have hcong : (List.range steps).countP ((fun v => v == 1) ∘
      (fun i => if i < h then (1 : Nat) else 0)) =
      (List.range steps).countP (fun i => decide (i < h)) :=
    List.countP_congr (fun i _ => by
      by_cases hih : i < h <;> simp [hih])
  rw [hcong, countP_range_lt]
  omega

theorem map_getD_range :
    ∀ (l : List Nat), (List.range l.length).map (fun i => l.getD i 0) = l := by
  intro l
  induction l with
  | nil => simp
  | cons a t ih =>
      rw [List.length_cons, List.range_succ_eq_map, List.map_cons, List.map_map]
      have htail : List.map ((fun i => (a :: t).getD i 0) ∘ Nat.succ)
          (List.range t.length) = List.map (fun i => t.getD i 0) (List.range t.length) :=
        List.map_congr_left (fun i _ => by simp [Function.comp, List.getD_cons_succ])
      rw [htail, ih]
      simp

theorem count_true_map_beq_one :
    ∀ (l : List Nat), (l.map (fun v => v == 1)).count true = l.count 1 := by
  intro l
  induction l with
  | nil => simp
  | cons a t ih =>
      simp only [List.map_cons, List.count_cons, ih]
      by_cases ha : a = 1 <;> simp [ha]

theorem count_true_map_getD (F : List Nat) :
    ((List.range F.length).map (fun i => F.getD i 0 == 1)).count true = F.count 1 := by
  have hsplit : (fun i => F.getD i 0 == 1) =
      ((fun v => v == 1) ∘ (fun i => F.getD i 0)) := rfl
  rw [hsplit, ← List.map_map, map_getD_range]
  exact count_true_map_beq_one F

/-- C2: the Euclidean generator returns a list of length `steps` in every
case; for `hits ≤ 0` it is all-false and for `hits ≥ steps` all-true; for
`0 < hits < steps` it contains exactly `hits` true entries (the bucket-merge
loop permutes the multiset of group entries, so the number of 1s is
conserved); it is a pure function of `(hits, steps)` (deterministic by
construction); and `euclidean 3 8` is the canonical Bjorklund output
`[true, false, false, true, false, false, true, false]`. -/
theorem euclidean_spec (hits : Int) (steps : Nat) :
    (euclidean hits steps).length = steps ∧
    (hits ≤ 0 → euclidean hits steps = List.replicate steps false) ∧
    ((steps : Int) ≤ hits → euclidean hits steps = List.replicate steps true) ∧
    (0 < hits → hits < (steps : Int) →
      (euclidean hits steps).count true = hits.toNat) ∧
    euclidean 3 8 = [true, false, false, true, false, false, true, false] := by
  refine ⟨?_, ?_, ?_, ?_, by decide⟩
  · unfold euclidean
    split_ifs <;> simp
  · intro h
    simp [euclidean, if_pos h]
  · intro h
    by_cases h0 : hits ≤ 0
    · have hsteps : steps = 0 := by omega
      subst hsteps
      simp [euclidean, if_pos h0]
    · simp [euclidean, if_neg h0, if_pos h]
  · intro h0 hs
    have hn0 : ¬ hits ≤ 0 := by omega
    have hns : ¬ (steps : Int) ≤ hits := by omega
    simp only [euclidean, if_neg hn0, if_neg hns]
    have hhs : hits.toNat ≤ steps := by omega
    have hpatlen : ((List.range steps).map
        (fun i => if i < hits.toNat then [(1 : Nat)] else [0])).length = steps := by
      simp
    have hperm := bjorkWhile_perm (steps - hits.toNat) (steps - hits.toNat) hits.toNat
      ((List.range steps).map (fun i => if i < hits.toNat then [1] else [0]))
      (by rw [hpatlen]; omega)
    have hflatpat := flatten_map_ite hits.toNat (List.range steps)
    have hlen : (bjorkWhile (steps - hits.toNat) (steps - hits.toNat) hits.toNat
        ((List.range steps).map
          (fun i => if i < hits.toNat then [1] else [0]))).flatten.length = steps := by
      rw [hperm.length_eq, hflatpat]
      simp
    have hcount1 : (bjorkWhile (steps - hits.toNat) (steps - hits.toNat) hits.toNat
        ((List.range steps).map
          (fun i => if i < hits.toNat then [1] else [0]))).flatten.count 1 =
        hits.toNat := by
      rw [hperm.count_eq, hflatpat]
      exact count_one_map_ite steps hits.toNat hhs
    set F := (bjorkWhile (steps - hits.toNat) (steps - hits.toNat) hits.toNat
      ((List.range steps).map
        (fun i => if i < hits.toNat then [1] else [0]))).flatten with hF
    rw [← hlen, count_true_map_getD]
    exact hcount1

theorem euclidean_spec_witness :
    ((0 : Int) < 3 ∧ (3 : Int) < ((8 : Nat) : Int) ∧
      (euclidean 3 8).count true = (3 : Int).toNat ∧
      ((-2 : Int) ≤ 0) ∧ euclidean (-2) 5 = List.replicate 5 false ∧
      (((4 : Nat) : Int) ≤ 9) ∧ euclidean 9 4 = List.replicate 4 true) :=
  ⟨by norm_num, by norm_num,
    (euclidean_spec 3 8).2.2.2.1 (by norm_num) (by norm_num),
    by norm_num, (euclidean_spec (-2) 5).2.1 (by norm_num),
    by norm_num, (euclidean_spec 9 4).2.2.1 (by norm_num)⟩
